import Mathlib

/-!
Shallow embedding of the recursive filesystem-watching core of the `gf`
repository (`g/os/gfsnotify/gfsnotify.go`).

The Go code keeps a thread-safe map from canonical absolute path to an
ordered list of callbacks (`Watcher.callbacks`), a native `fsnotify`
subscription per key, and runs a dispatch loop that reconciles fake
deletes, expands newly created directories and fires callbacks found by
a hierarchical parent-walking lookup.

The embedding below keeps the sequential data content of that code:

* paths are cleaned Go paths, split into segments, with the
  absolute/relative distinction kept because `gfile.Dir` (Go
  `filepath.Dir`) behaves differently on the two ("/" is a fixed point
  of `Dir` on absolute paths, "." on relative ones);
* the registry is an association list in insertion order, mirroring the
  Go map plus the per-key `glist` (insertion order of callbacks is kept
  by `PushBack`);
* the filesystem utilities of `gfile` (`RealPath`, `IsDir`, `ScanDir`,
  `Exists`) and the accept/reject behaviour of the native `fsnotify`
  source are parameters (`FS`, and the two rejection predicates), since
  those collaborators live outside this package;
* callbacks are opaque values, modelled as numeric identifiers;
* one iteration of the dispatch loop (`startEventLoop`) is the function
  `eventStep`; the spawned invocation unit is flattened into the list of
  callbacks it would run.
-/

namespace Gfsnotify

/-- A cleaned Go path, split into segments.  `abs segs` renders as
`"/" ++ "/".intercalate segs` (so `abs []` is the filesystem root `"/"`)
and `rel segs` renders as `"/".intercalate segs` (so `rel []` is `"."`). -/
inductive GoPath where
  | abs : List String → GoPath
  | rel : List String → GoPath
deriving DecidableEq, Repr

/-- `gfile.Dir` (Go `filepath.Dir`) on cleaned paths: drop the last
segment; the fixed points are `"/"` for absolute and `"."` for relative
paths. -/
def GoPath.dir : GoPath → GoPath
  | .abs segs => .abs segs.dropLast
  | .rel segs => .rel segs.dropLast

/-- Whether the path is rooted at `"/"`. -/
def GoPath.isAbs : GoPath → Bool
  | .abs _ => true
  | .rel _ => false

/-- Number of path segments. -/
def GoPath.nsegs : GoPath → Nat
  | .abs s => s.length
  | .rel s => s.length

/-- The filesystem root `"/"`, the loop guard of `Watcher.getCallbacks`
(`for path != "/"`). -/
def GoPath.fsroot : GoPath := .abs []

/-- Callbacks (`func(event *Event)`) are opaque values stored in the
per-path `glist`; we model them by identifiers. -/
abbrev Cb := Nat

/-- The content of `Watcher.callbacks` (a `gmap.StringInterfaceMap`
whose values are `glist.List`s of callbacks): canonical path to the
ordered callback list, in insertion order. -/
abbrev Registry := List (GoPath × List Cb)

/-- Map lookup (`m[path]` / `callbacks.Get`). -/
def regGet (m : Registry) (p : GoPath) : Option (List Cb) :=
  match m with
  | [] => none
  | (k, v) :: rest => if k = p then some v else regGet rest p

/-- Replace the value stored at a present key (the Go code mutates the
`glist` in place; replacing the stored list models that mutation). -/
def regSet (m : Registry) (p : GoPath) (v : List Cb) : Registry :=
  match m with
  | [] => []
  | (k, w) :: rest => if k = p then (k, v) :: rest else (k, w) :: regSet rest p v

/-- Map deletion (`callbacks.Remove(path)`). -/
def regRemove (m : Registry) (p : GoPath) : Registry :=
  match m with
  | [] => []
  | (k, w) :: rest => if k = p then rest else (k, w) :: regRemove rest p

/-- The key set of the registry, in insertion order. -/
def regKeys (m : Registry) : List GoPath := m.map Prod.fst

/-- The registry update performed under `callbacks.LockFunc` in
`Watcher.addWatch`: push the callback onto the path's list, creating the
list when the key is absent. -/
def insertCb (m : Registry) (t : GoPath) (cb : Cb) : Registry :=
  match regGet m t with
  | none => m ++ [(t, [cb])]
  | some l => regSet m t (l ++ [cb])

/-- Errors surfaced by the package: `addWatch`'s
`errors.New(fmt.Sprintf("%s does not exist", path))` and the error of
the native `fsnotify` `Remove`. -/
inductive WErr where
  | pathNotExist : GoPath → WErr
  | nativeRemoveFail : GoPath → WErr
deriving DecidableEq, Repr

/-- Op bit `CREATE = 1 << 0`. -/
def CREATE : Nat := 1
/-- Op bit `WRITE = 1 << 1`. -/
def WRITE : Nat := 2
/-- Op bit `REMOVE = 1 << 2`. -/
def REMOVE : Nat := 4
/-- Op bit `RENAME = 1 << 3`. -/
def RENAME : Nat := 8
/-- Op bit `CHMOD = 1 << 4`. -/
def CHMOD : Nat := 16

/-- A logical event: `Path` and the `Op` bitmask (a Go `uint32`; only
the five low bits are ever set).  The `Watcher` back-reference of the Go
struct carries no data relevant here and is omitted. -/
structure Event where
  Path : GoPath
  Op : Nat
deriving DecidableEq, Repr

/-- Modelled from the spec: the `Event.IsRemove` accessor is declared in
a package file that is not part of the shown sources; the spec fixes the
bitmask discipline ("code must test membership with bitwise AND, not
equality"). -/
def Event.IsRemove (e : Event) : Bool := e.Op &&& REMOVE != 0

/-- Modelled from the spec: the `Event.IsCreate` accessor, as
`Event.IsRemove` above. -/
def Event.IsCreate (e : Event) : Bool := e.Op &&& CREATE != 0

/-- The `gfile` filesystem utilities consumed by the package, as one
abstract snapshot: `resolve` is `gfile.RealPath` (`none` for the empty
string it returns on a nonexistent path), `isDir` is `gfile.IsDir`,
`scanDir` is the recursive `gfile.ScanDir(path, "*", true)` listing, and
`pexists` is `gfile.Exists`. -/
structure FS where
  resolve : GoPath → Option GoPath
  isDir : GoPath → Bool
  scanDir : GoPath → List GoPath
  pexists : GoPath → Bool

/-- The watcher state relevant to the claims: the callback registry and
the set of paths currently subscribed at the native `fsnotify` source. -/
structure WState where
  callbacks : Registry
  subscribed : List GoPath
deriving DecidableEq, Repr

/-- `w.watcher.Add(path)`: the native source either rejects the
subscription (predicate `nf`) or records the path.  The Go call sites in
`addWatch` and the event loop discard the returned error. -/
def nativeAdd (nf : GoPath → Bool) (s : List GoPath) (p : GoPath) : List GoPath :=
  if nf p then s
  else if p ∈ s then s else s ++ [p]

/-- `w.watcher.Remove(path)`: the native source either rejects the
unsubscription (predicate `nrf`, e.g. real `fsnotify` rejects removing a
watch that does not exist) or drops the path; the error is returned. -/
def nativeRemove (nrf : GoPath → Bool) (s : List GoPath) (p : GoPath) :
    List GoPath × Option WErr :=
  if nrf p then (s, some (WErr.nativeRemoveFail p))
  else (s.erase p, none)

/-- `Watcher.addWatch`: canonicalize via `gfile.RealPath` (error when
the path does not exist), push the callback onto the canonical path's
list, then issue the native subscription — whose error the Go code
discards (`w.watcher.Add(path)` on line 111 ignores the result). -/
def addWatch (fs : FS) (nf : GoPath → Bool) (w : WState) (path : GoPath) (cb : Cb) :
    WState × Option WErr :=
  match fs.resolve path with
  | none => (w, some (WErr.pathNotExist path))
  | some t =>
      ({ callbacks := insertCb w.callbacks t cb,
         subscribed := nativeAdd nf w.subscribed t }, none)

/-- The member loop of `Watcher.Add`'s recursive branch: add each path
in order, returning the first error immediately (no rollback of the
members already added). -/
def addAll (fs : FS) (nf : GoPath → Bool) (w : WState) (l : List GoPath) (cb : Cb) :
    WState × Option WErr :=
  match l with
  | [] => (w, none)
  | p :: rest =>
      match addWatch fs nf w p cb with
      | (w', some e) => (w', some e)
      | (w', none) => addAll fs nf w' rest cb

/-- `Watcher.Add`: when the path is a directory and recursion is
requested (`len(recursive) == 0 || recursive[0]`, so recursive by
default), add the path and its full recursive listing; otherwise a
single `addWatch`. -/
def Add (fs : FS) (nf : GoPath → Bool) (w : WState) (path : GoPath) (cb : Cb)
    (recursive : List Bool) : WState × Option WErr :=
  if fs.isDir path && (recursive.isEmpty || recursive.headD false) then
    addAll fs nf w (path :: fs.scanDir path) cb
  else
    addWatch fs nf w path cb

/-- `Watcher.removeWatch`: delete the registry entry, then return the
native unsubscription's result. -/
def removeWatch (nrf : GoPath → Bool) (w : WState) (path : GoPath) :
    WState × Option WErr :=
  let s := nativeRemove nrf w.subscribed path
  ({ callbacks := regRemove w.callbacks path, subscribed := s.1 }, s.2)

/-- The member loop of `Watcher.Remove`'s recursive branch: remove each
path in order, returning the first error immediately. -/
def removeAll (nrf : GoPath → Bool) (w : WState) (l : List GoPath) :
    WState × Option WErr :=
  match l with
  | [] => (w, none)
  | p :: rest =>
      match removeWatch nrf w p with
      | (w', some e) => (w', some e)
      | (w', none) => removeAll nrf w' rest

/-- `Watcher.Remove`: when the path is (currently) a directory, remove
it together with its current recursive listing; otherwise a single
`removeWatch`. -/
def Remove (fs : FS) (nrf : GoPath → Bool) (w : WState) (path : GoPath) :
    WState × Option WErr :=
  if fs.isDir path then
    removeAll nrf w (path :: fs.scanDir path)
  else
    removeWatch nrf w path

/-- The loop body of `Watcher.getCallbacks` with explicit fuel:
`for path != "/" { if entry present, return it; path = Dir(path) }`,
falling back to `nil` once the root is reached.  The outer `none` means
the fuel ran out before the loop finished; the inner value is the loop's
result, paired with the key at which the entry was found (the Go code
returns a pointer into the map, so later dispatch reads the list stored
at that key). -/
def gcLoop (m : Registry) : Nat → GoPath → Option (Option (GoPath × List Cb))
  | 0, _ => none
  | fuel + 1, p =>
      if p = GoPath.fsroot then some none
      else
        match regGet m p with
        | some l => some (some (p, l))
        | none => gcLoop m fuel p.dir

/-- Enough fuel for the `getCallbacks` loop to either finish or reach
its fixed point: one test per segment plus one for the final value. -/
def pathFuel (p : GoPath) : Nat := p.nsegs + 1

/-- `Watcher.getCallbacks`, run with fuel `pathFuel`.  On an absolute
path this is exact (the loop always finishes within that fuel); on a
relative path the fuel reaches the loop's fixed point `"."`, so an outer
`none` here means the Go loop never terminates. -/
def getCallbacks (m : Registry) (p : GoPath) : Option (Option (GoPath × List Cb)) :=
  gcLoop m (pathFuel p) p

/-- Outcome of one iteration of the dispatch loop: a normal step (new
state, the possibly rewritten event handed to callbacks, and the list of
callbacks the spawned unit runs), a runtime fault, or a non-terminating
callback lookup. -/
inductive StepResult where
  | ok : WState → Event → List Cb → StepResult
  | fault : StepResult
  | hang : StepResult
deriving DecidableEq, Repr

/-- Step 1 of the dispatch-loop body (fake-delete reconciliation): on a
REMOVE whose path still exists, re-issue the native subscription (the
`w.watcher.Add(event.Path)` call whose error is discarded) and
overwrite the event's `Op` with `RENAME`; on a REMOVE whose path is
gone, run `w.Remove(event.Path)` (error discarded); otherwise leave the
state and event untouched. -/
def reconcile (fs : FS) (nf nrf : GoPath → Bool) (w : WState) (ev0 : Event) :
    WState × Event :=
  if ev0.IsRemove then
    if fs.pexists ev0.Path then
      ({ w with subscribed := nativeAdd nf w.subscribed ev0.Path },
       { ev0 with Op := RENAME })
    else
      ((Remove fs nrf w ev0.Path).1, ev0)
  else (w, ev0)

/-- One iteration of `startEventLoop`'s body on a dequeued event:

1. fake-delete reconciliation — on a REMOVE whose path still exists,
   re-issue the native subscription (error discarded) and overwrite the
   `Op` with `RENAME`; on a REMOVE whose path is gone, run
   `w.Remove(event.Path)` (error discarded);
2. look up the callbacks (`w.getCallbacks(event.Path)`);
3. new-directory expansion — on a CREATE whose path is currently a
   directory, iterate `callbacks.FrontAll()` and re-run `w.Add` for each
   callback; the Go code performs this *before* its `callbacks != nil`
   check, and `glist.List.FrontAll` dereferences its receiver, so a
   missing entry here is a nil-pointer fault (`StepResult.fault`);
4. dispatch — when callbacks were found, the spawned unit iterates
   `callbacks.FrontAll()` again on the same list object, so it sees the
   list stored at the matched key *after* the expansion of step 3. -/
def eventStep (fs : FS) (nf nrf : GoPath → Bool) (w : WState) (ev0 : Event) :
    StepResult :=
  let w1 := (reconcile fs nf nrf w ev0).1
  let ev := (reconcile fs nf nrf w ev0).2
  match getCallbacks w1.callbacks ev.Path with
  | none => StepResult.hang
  | some found =>
      if ev.IsCreate && fs.isDir ev.Path then
        match found with
        | none => StepResult.fault
        | some (key, snapshot) =>
            let w2 := snapshot.foldl (fun acc cb => (Add fs nf acc ev.Path cb []).1) w1
            StepResult.ok w2 ev ((regGet w2.callbacks key).getD snapshot)
      else
        match found with
        | none => StepResult.ok w1 ev []
        | some (key, _) => StepResult.ok w1 ev ((regGet w1.callbacks key).getD [])

/-- The hierarchical-fallback walk of the spec, phrased over the
*reversed* segment list of an absolute path: test the path, then strip
its last segment and recurse, never consulting the root `"/"` itself. -/
def chainR (m : Registry) : List String → Option (GoPath × List Cb)
  | [] => none
  | s :: rest =>
      match regGet m (GoPath.abs ((s :: rest).reverse)) with
      | some l => some (GoPath.abs ((s :: rest).reverse), l)
      | none => chainR m rest

/-- The spec's `lookup(path)` on the absolute path with segments `segs`:
first match among the path and its proper ancestors below the root. -/
def specLookup (m : Registry) (segs : List String) : Option (GoPath × List Cb) :=
  chainR m segs.reverse

/-- The invariant of §3 of the spec: every registry key is an output of
filesystem resolution (`gfile.RealPath`). -/
def keysResolved (fs : FS) (m : Registry) : Prop :=
  ∀ k ∈ regKeys m, ∃ q, fs.resolve q = some k

/-! Concrete fixtures used by counterexamples, evaluations and
witnesses. -/

/-- A filesystem in which every path resolves to itself, nothing is a
directory, directories list nothing and nothing exists (the state seen
by the dispatch loop right after a real deletion). -/
def fsGone : FS :=
  { resolve := fun p => some p, isDir := fun _ => false,
    scanDir := fun _ => [], pexists := fun _ => false }

/-- A filesystem in which every path resolves to itself and exists but
nothing is a directory. -/
def fsFlat : FS :=
  { resolve := fun p => some p, isDir := fun _ => false,
    scanDir := fun _ => [], pexists := fun _ => true }

/-- A filesystem in which every path is an existing directory with an
empty listing. -/
def fsAllDir : FS :=
  { resolve := fun p => some p, isDir := fun _ => true,
    scanDir := fun _ => [], pexists := fun _ => true }

/-- A filesystem whose directory `/r` contains exactly the file
`/r/a` and the file `/r/b`; every path resolves to itself. -/
def fsTree : FS :=
  { resolve := fun p => some p,
    isDir := fun p => p = GoPath.abs ["r"],
    scanDir := fun p =>
      if p = GoPath.abs ["r"] then [GoPath.abs ["r", "a"], GoPath.abs ["r", "b"]]
      else [],
    pexists := fun _ => true }

/-- `fsTree` with the member `/r/b` made unresolvable (it vanished
between the directory scan and its own `addWatch`). -/
def fsTreeBad : FS :=
  { resolve := fun p => if p = GoPath.abs ["r", "b"] then none else some p,
    isDir := fun p => p = GoPath.abs ["r"],
    scanDir := fun p =>
      if p = GoPath.abs ["r"] then [GoPath.abs ["r", "a"], GoPath.abs ["r", "b"]]
      else [],
    pexists := fun _ => true }

/-- A native source that accepts everything. -/
def nfAccept : GoPath → Bool := fun _ => false

/-- A native source that rejects everything (as real `fsnotify` does,
for instance, when asked to remove a watch it does not hold). -/
def nfReject : GoPath → Bool := fun _ => true

/-- The empty watcher state. -/
def wEmpty : WState := { callbacks := [], subscribed := [] }

/-! ### Registry lemmas -/

theorem regKeys_nil : regKeys [] = [] := rfl

theorem regKeys_cons (e : GoPath × List Cb) (m : Registry) :
    regKeys (e :: m) = e.1 :: regKeys m := rfl

theorem regKeys_append (a b : Registry) :
    regKeys (a ++ b) = regKeys a ++ regKeys b := List.map_append _ a b

theorem regGet_append (a b : Registry) (p : GoPath) :
    regGet (a ++ b) p =
      match regGet a p with
      | some l => some l
      | none => regGet b p := by
  induction a with
  | nil => simp [regGet]
  | cons e rest ih =>
      obtain ⟨k, v⟩ := e
      by_cases h : k = p <;> simp [regGet, h, ih]

theorem regGet_eq_none_iff (m : Registry) (p : GoPath) :
    regGet m p = none ↔ p ∉ regKeys m := by
  induction m with
  | nil => simp [regGet, regKeys]
  | cons e rest ih =>
      obtain ⟨k, v⟩ := e
      by_cases h : k = p
      · subst h
        simp [regGet, regKeys_cons]
      · simp only [regGet, if_neg h, regKeys_cons, List.mem_cons, ih]
        constructor
        · intro hn
          push_neg
          exact ⟨fun he => h he.symm, hn⟩
        · intro hn
          push_neg at hn
          exact hn.2

theorem regKeys_regSet (m : Registry) (k : GoPath) (v : List Cb) :
    regKeys (regSet m k v) = regKeys m := by
  induction m with
  | nil => rfl
  | cons e rest ih =>
      obtain ⟨k0, v0⟩ := e
      by_cases h : k0 = k <;> simp [regSet, regKeys_cons, h, ih]

theorem regGet_regSet_of_get_some (m : Registry) (k : GoPath) (v l : List Cb)
    (h : regGet m k = some l) : regGet (regSet m k v) k = some v := by
  induction m with
  | nil => simp [regGet] at h
  | cons e rest ih =>
      obtain ⟨k0, v0⟩ := e
      by_cases hk : k0 = k
      · simp [regSet, regGet, hk]
      · simp only [regGet, if_neg hk] at h
        simp [regSet, regGet, hk, ih h]

theorem regGet_regSet_other (m : Registry) (k k' : GoPath) (v : List Cb)
    (h : k ≠ k') : regGet (regSet m k' v) k = regGet m k := by
  induction m with
  | nil => rfl
  | cons e rest ih =>
      obtain ⟨k0, v0⟩ := e
      by_cases hk : k0 = k'
      · subst hk
        have hne : ¬k0 = k := fun he => h he.symm
        simp [regSet, regGet, hne]
      · by_cases hp : k0 = k
        · subst hp
          simp [regSet, regGet, hk]
        · simp [regSet, regGet, hk, hp, ih]

theorem mem_regKeys_regRemove (m : Registry) (p k : GoPath)
    (h : k ∈ regKeys (regRemove m p)) : k ∈ regKeys m := by
  induction m with
  | nil => simpa [regRemove] using h
  | cons e rest ih =>
      obtain ⟨k0, v0⟩ := e
      by_cases hk : k0 = p
      · simp only [regRemove, if_pos hk] at h
        simp [regKeys_cons]
        right
        exact h
      · simp only [regRemove, if_neg hk, regKeys_cons, List.mem_cons] at h ⊢
        rcases h with h | h
        · exact Or.inl h
        · exact Or.inr (ih h)

theorem regRemove_of_get_none (m : Registry) (p : GoPath)
    (h : regGet m p = none) : regRemove m p = m := by
  induction m with
  | nil => rfl
  | cons e rest ih =>
      obtain ⟨k0, v0⟩ := e
      by_cases hk : k0 = p
      · simp [regGet, hk] at h
      · simp only [regGet, if_neg hk] at h
        simp [regRemove, hk, ih h]

theorem regGet_insertCb_self (m : Registry) (t : GoPath) (cb : Cb) :
    regGet (insertCb m t cb) t = some ((regGet m t).getD [] ++ [cb]) := by
  unfold insertCb
  cases hg : regGet m t with
  | none =>
      rw [regGet_append]
      simp [hg, regGet]
  | some l =>
      simp [regGet_regSet_of_get_some m t (l ++ [cb]) l hg]

theorem regGet_insertCb_other (m : Registry) (t t' : GoPath) (cb : Cb)
    (h : t ≠ t') : regGet (insertCb m t' cb) t = regGet m t := by
  unfold insertCb
  cases hg : regGet m t' with
  | none =>
      rw [regGet_append]
      cases hm : regGet m t with
      | some l => simp
      | none =>
          have hne : ¬t' = t := fun he => h he.symm
          simp [regGet, hne]
  | some l => exact regGet_regSet_other m t t' (l ++ [cb]) h

theorem mem_regKeys_insertCb (m : Registry) (t : GoPath) (cb : Cb) (k : GoPath)
    (h : k ∈ regKeys (insertCb m t cb)) : k = t ∨ k ∈ regKeys m := by
  unfold insertCb at h
  cases hg : regGet m t with
  | none =>
      rw [hg, regKeys_append] at h
      rcases List.mem_append.mp h with h | h
      · exact Or.inr h
      · simp [regKeys] at h
        exact Or.inl h
  | some l =>
      rw [hg, regKeys_regSet] at h
      exact Or.inr h

/-! ### Lookup-loop lemmas -/

theorem gcLoop_zero (m : Registry) (p : GoPath) : gcLoop m 0 p = none := rfl

theorem gcLoop_succ (m : Registry) (fuel : Nat) (p : GoPath) :
    gcLoop m (fuel + 1) p =
      if p = GoPath.fsroot then some none
      else
        match regGet m p with
        | some l => some (some (p, l))
        | none => gcLoop m fuel p.dir := rfl

theorem gcLoop_chainR (m : Registry) :
    ∀ rev : List String,
      gcLoop m (rev.length + 1) (GoPath.abs rev.reverse) = some (chainR m rev) := by
  intro rev
  induction rev with
  | nil => simp [gcLoop_succ, chainR, GoPath.fsroot]
  | cons s rest ih =>
      have hne : GoPath.abs ((s :: rest).reverse) ≠ GoPath.fsroot := by
        simp [GoPath.fsroot]
      rw [gcLoop_succ, if_neg hne]
      cases hg : regGet m (GoPath.abs ((s :: rest).reverse)) with
      | some l =>
          have hg' := hg
          simp only [List.reverse_cons] at hg'
          simp [chainR, hg']
      | none =>
          have hdir : (GoPath.abs ((s :: rest).reverse)).dir = GoPath.abs rest.reverse := by
            simp [GoPath.dir, List.reverse_cons, List.dropLast_concat]
          simp only [chainR, hg, hdir, List.length_cons]
          exact ih

theorem gcLoop_abs_isSome (m : Registry) :
    ∀ (fuel : Nat) (segs : List String), segs.length < fuel →
      (gcLoop m fuel (GoPath.abs segs)).isSome = true := by
  intro fuel
  induction fuel with
  | zero => intro segs h; omega
  | succ f ih =>
      intro segs h
      rw [gcLoop_succ]
      by_cases hr : GoPath.abs segs = GoPath.fsroot
      · simp [hr]
      · rw [if_neg hr]
        cases hg : regGet m (GoPath.abs segs) with
        | some l => simp
        | none =>
            have hnn : segs ≠ [] := by
              intro he
              exact hr (by simp [he, GoPath.fsroot])
            have hlen : segs.dropLast.length < f := by
              have hp := List.length_pos.mpr hnn
              rw [List.length_dropLast]
              omega
            simpa [GoPath.dir] using ih segs.dropLast hlen

theorem regGet_rel_none (m : Registry) (h : ∀ k ∈ regKeys m, k.isAbs = true)
    (segs : List String) : regGet m (GoPath.rel segs) = none := by
  induction m with
  | nil => rfl
  | cons e rest ih =>
      obtain ⟨k, v⟩ := e
      have hk : k.isAbs = true := h k (by simp [regKeys_cons])
      have hne : ¬k = GoPath.rel segs := by
        intro he
        rw [he] at hk
        simp [GoPath.isAbs] at hk
      simp only [regGet, if_neg hne]
      exact ih (fun k' hk' => h k' (by simp [regKeys_cons, hk']))

theorem gcLoop_rel_none (m : Registry) (h : ∀ k ∈ regKeys m, k.isAbs = true) :
    ∀ (fuel : Nat) (segs : List String), gcLoop m fuel (GoPath.rel segs) = none := by
  intro fuel
  induction fuel with
  | zero => intro segs; rfl
  | succ f ih =>
      intro segs
      have hr : GoPath.rel segs ≠ GoPath.fsroot := by simp [GoPath.fsroot]
      rw [gcLoop_succ, if_neg hr, regGet_rel_none m h segs]
      exact ih segs.dropLast

/-! ### Canonical-key invariant -/

theorem keysResolved_insertCb (fs : FS) (m : Registry) (t : GoPath) (cb : Cb)
    (hres : ∃ q, fs.resolve q = some t) (h : keysResolved fs m) :
    keysResolved fs (insertCb m t cb) := by
  intro k hk
  rcases mem_regKeys_insertCb m t cb k hk with rfl | hk2
  · exact hres
  · exact h k hk2

theorem keysResolved_addWatch (fs : FS) (nf : GoPath → Bool) (w : WState)
    (p : GoPath) (cb : Cb) (h : keysResolved fs w.callbacks) :
    keysResolved fs (addWatch fs nf w p cb).1.callbacks := by
  unfold addWatch
  cases hres : fs.resolve p with
  | none => exact h
  | some t => exact keysResolved_insertCb fs w.callbacks t cb ⟨p, hres⟩ h

theorem keysResolved_addAll (fs : FS) (nf : GoPath → Bool) (cb : Cb) :
    ∀ (l : List GoPath) (w : WState), keysResolved fs w.callbacks →
      keysResolved fs (addAll fs nf w l cb).1.callbacks := by
  intro l
  induction l with
  | nil => intro w h; exact h
  | cons p rest ih =>
      intro w h
      rw [addAll]
      cases hres : fs.resolve p with
      | none => simpa [addWatch, hres] using h
      | some t =>
          have h1 : keysResolved fs (insertCb w.callbacks t cb) :=
            keysResolved_insertCb fs w.callbacks t cb ⟨p, hres⟩ h
          simpa [addWatch, hres] using ih _ h1

theorem keysResolved_Add (fs : FS) (nf : GoPath → Bool) (w : WState) (p : GoPath)
    (cb : Cb) (rc : List Bool) (h : keysResolved fs w.callbacks) :
    keysResolved fs (Add fs nf w p cb rc).1.callbacks := by
  unfold Add
  by_cases hc : (fs.isDir p && (rc.isEmpty || rc.headD false)) = true
  · simp only [if_pos hc]
    exact keysResolved_addAll fs nf cb _ w h
  · simp only [if_neg hc]
    exact keysResolved_addWatch fs nf w p cb h

theorem keysResolved_regRemove (fs : FS) (m : Registry) (p : GoPath)
    (h : keysResolved fs m) : keysResolved fs (regRemove m p) :=
  fun k hk => h k (mem_regKeys_regRemove m p k hk)

theorem keysResolved_removeAll (fs : FS) (nrf : GoPath → Bool) :
    ∀ (l : List GoPath) (w : WState), keysResolved fs w.callbacks →
      keysResolved fs (removeAll nrf w l).1.callbacks := by
  intro l
  induction l with
  | nil => intro w h; exact h
  | cons p rest ih =>
      intro w h
      have hw' : keysResolved fs (regRemove w.callbacks p) :=
        keysResolved_regRemove fs w.callbacks p h
      rw [removeAll]
      by_cases hn : nrf p = true
      · simpa [removeWatch, nativeRemove, hn] using hw'
      · simpa [removeWatch, nativeRemove, hn] using ih _ hw'

theorem keysResolved_Remove (fs : FS) (nrf : GoPath → Bool) (w : WState)
    (p : GoPath) (h : keysResolved fs w.callbacks) :
    keysResolved fs (Remove fs nrf w p).1.callbacks := by
  unfold Remove
  by_cases hd : fs.isDir p = true
  · simp only [if_pos hd]
    exact keysResolved_removeAll fs nrf _ w h
  · simp only [if_neg hd]
    simpa [removeWatch] using keysResolved_regRemove fs w.callbacks p h

theorem keysResolved_reconcile (fs : FS) (nf nrf : GoPath → Bool) (w : WState)
    (ev : Event) (h : keysResolved fs w.callbacks) :
    keysResolved fs (reconcile fs nf nrf w ev).1.callbacks := by
  unfold reconcile
  by_cases h1 : ev.IsRemove = true
  · by_cases h2 : fs.pexists ev.Path = true
    · simpa [h1, h2] using h
    · simpa [h1, h2] using keysResolved_Remove fs nrf w ev.Path h
  · simpa [h1] using h

theorem keysResolved_foldAdd (fs : FS) (nf : GoPath → Bool) (p : GoPath) :
    ∀ (l : List Cb) (w : WState), keysResolved fs w.callbacks →
      keysResolved fs
        (l.foldl (fun acc cb => (Add fs nf acc p cb []).1) w).callbacks := by
  intro l
  induction l with
  | nil => intro w h; exact h
  | cons c rest ih =>
      intro w h
      simpa [List.foldl_cons] using ih _ (keysResolved_Add fs nf w p c [] h)

theorem keysResolved_eventStep (fs : FS) (nf nrf : GoPath → Bool) (w : WState)
    (ev : Event) (h : keysResolved fs w.callbacks) :
    ∀ w' ev' fired, eventStep fs nf nrf w ev = .ok w' ev' fired →
      keysResolved fs w'.callbacks := by
  intro w' ev' fired hstep
  have h1 := keysResolved_reconcile fs nf nrf w ev h
  simp only [eventStep] at hstep
  split at hstep
  · exact StepResult.noConfusion hstep
  · split at hstep
    · split at hstep
      · exact StepResult.noConfusion hstep
      · rw [StepResult.ok.injEq] at hstep
        obtain ⟨hw, -, -⟩ := hstep
        subst hw
        exact keysResolved_foldAdd fs nf _ _ _ h1
    · split at hstep
      · rw [StepResult.ok.injEq] at hstep
        obtain ⟨hw, -, -⟩ := hstep
        subst hw
        exact h1
      · rw [StepResult.ok.injEq] at hstep
        obtain ⟨hw, -, -⟩ := hstep
        subst hw
        exact h1

/-! ### Add/Remove loop lemmas -/

theorem insertCb_get_mono (m : Registry) (tp t : GoPath) (cb x : Cb)
    (lst : List Cb) (h : regGet m t = some lst) (hx : x ∈ lst) :
    ∃ lst', regGet (insertCb m tp cb) t = some lst' ∧ x ∈ lst' := by
  by_cases he : tp = t
  · subst he
    refine ⟨(regGet m tp).getD [] ++ [cb], regGet_insertCb_self m tp cb, ?_⟩
    rw [h]
    simp [hx]
  · refine ⟨lst, ?_, hx⟩
    rw [regGet_insertCb_other m t tp cb (fun he2 => he he2.symm)]
    exact h

theorem addWatch_callbacks_eq (fs : FS) (nf : GoPath → Bool) (w : WState)
    (p : GoPath) (cb : Cb) (t : GoPath) (h : fs.resolve p = some t) :
    (addWatch fs nf w p cb).1.callbacks = insertCb w.callbacks t cb := by
  simp [addWatch, h]

theorem addAll_mono (fs : FS) (nf : GoPath → Bool) (cb x : Cb) (t : GoPath) :
    ∀ (l : List GoPath) (w : WState) (lst : List Cb),
      regGet w.callbacks t = some lst → x ∈ lst →
      ∃ lst', regGet (addAll fs nf w l cb).1.callbacks t = some lst' ∧ x ∈ lst' := by
  intro l
  induction l with
  | nil => intro w lst h hx; exact ⟨lst, h, hx⟩
  | cons p rest ih =>
      intro w lst h hx
      rw [addAll]
      cases hres : fs.resolve p with
      | none =>
          simp only [addWatch, hres]
          exact ⟨lst, h, hx⟩
      | some tp =>
          obtain ⟨lst1, h1, hx1⟩ := insertCb_get_mono w.callbacks tp t cb x lst h hx
          simp only [addWatch, hres]
          exact ih _ lst1 h1 hx1

theorem addAll_fresh (fs : FS) (nf : GoPath → Bool) (cb : Cb) :
    ∀ (l : List GoPath) (w : WState),
      (∀ p ∈ l, (fs.resolve p).isSome = true) →
      (l.map fs.resolve).Nodup →
      (∀ p ∈ l, ∀ t, fs.resolve p = some t → regGet w.callbacks t = none) →
      (addAll fs nf w l cb).2 = none ∧
      (addAll fs nf w l cb).1.callbacks =
        w.callbacks ++ l.map (fun p => ((fs.resolve p).getD p, [cb])) := by
  intro l
  induction l with
  | nil => intro w _ _ _; exact ⟨rfl, by simp [addAll]⟩
  | cons p rest ih =>
      intro w hres hnd hfresh
      obtain ⟨t, ht⟩ := Option.isSome_iff_exists.mp (hres p (by simp))
      have hget : regGet w.callbacks t = none := hfresh p (by simp) t ht
      rw [addAll]
      simp only [addWatch, ht, insertCb, hget]
      have hres' : ∀ q ∈ rest, (fs.resolve q).isSome = true :=
        fun q hq => hres q (by simp [hq])
      have hnd' : (rest.map fs.resolve).Nodup := by
        simp only [List.map_cons, List.nodup_cons] at hnd
        exact hnd.2
      have hnotmem : fs.resolve p ∉ rest.map fs.resolve := by
        simp only [List.map_cons, List.nodup_cons] at hnd
        exact hnd.1
      have hfresh' : ∀ q ∈ rest, ∀ t', fs.resolve q = some t' →
          regGet (w.callbacks ++ [(t, [cb])]) t' = none := by
        intro q hq t' ht'
        have hne : t' ≠ t := by
          intro he
          subst he
          exact hnotmem (by
            rw [← ht'] at ht
            exact ht ▸ List.mem_map_of_mem fs.resolve hq)
        rw [regGet_append]
        rw [hfresh q (by simp [hq]) t' ht']
        have hne' : ¬t = t' := fun he => hne he.symm
        simp [regGet, hne']
      obtain ⟨he, hcb⟩ := ih ⟨w.callbacks ++ [(t, [cb])], nativeAdd nf w.subscribed t⟩
        hres' hnd' hfresh'
      refine ⟨he, ?_⟩
      rw [hcb]
      simp [ht, List.append_assoc]

theorem addAll_append_fail (fs : FS) (nf : GoPath → Bool) (cb : Cb) (bad : GoPath)
    (hbad : fs.resolve bad = none) :
    ∀ (good rest : List GoPath) (w : WState),
      (∀ p ∈ good, (fs.resolve p).isSome = true) →
      addAll fs nf w (good ++ bad :: rest) cb =
        ((addAll fs nf w good cb).1, some (WErr.pathNotExist bad)) := by
  intro good
  induction good with
  | nil =>
      intro rest w _
      simp [addAll, addWatch, hbad]
  | cons p g ih =>
      intro rest w hres
      obtain ⟨t, ht⟩ := Option.isSome_iff_exists.mp (hres p (by simp))
      rw [List.cons_append, addAll]
      conv_rhs => rw [addAll]
      simp only [addWatch, ht]
      exact ih rest _ (fun q hq => hres q (by simp [hq]))

theorem addAll_registered (fs : FS) (nf : GoPath → Bool) (cb : Cb) :
    ∀ (l : List GoPath) (w : WState),
      (∀ p ∈ l, (fs.resolve p).isSome = true) →
      ∀ p ∈ l, ∀ t, fs.resolve p = some t →
        ∃ lst, regGet (addAll fs nf w l cb).1.callbacks t = some lst ∧ cb ∈ lst := by
  intro l
  induction l with
  | nil =>
      intro w _ p hp
      simp at hp
  | cons q rest ih =>
      intro w hres p hp t ht
      obtain ⟨tq, htq⟩ := Option.isSome_iff_exists.mp (hres q (by simp))
      rw [addAll]
      simp only [addWatch, htq]
      rcases List.mem_cons.mp hp with rfl | hp2
      · rw [ht] at htq
        have htt : tq = t := (Option.some.inj htq).symm
        subst htt
        have h1 := regGet_insertCb_self w.callbacks tq cb
        exact addAll_mono fs nf cb cb tq rest _ _ h1 (by simp)
      · exact ih _ (fun r hr => hres r (by simp [hr])) p hp2 t ht

theorem removeAll_err_iff (nrf : GoPath → Bool) :
    ∀ (l : List GoPath) (w : WState),
      (removeAll nrf w l).2 = none ↔ ∀ p ∈ l, nrf p = false := by
  intro l
  induction l with
  | nil => intro w; simp [removeAll]
  | cons p rest ih =>
      intro w
      rw [removeAll]
      by_cases h : nrf p = true
      · simp [removeWatch, nativeRemove, h]
      · simp only [removeWatch, nativeRemove, h, if_false]
        simp only [Bool.not_eq_true] at h
        simp [ih, h]

/-! ### Claim theorems -/

/-- C1: code evaluation at the failing input.  The registry holds the
directory `/d` and its file `/d/f`; `/d` has been really deleted
(`gfile.Exists` is false, and a deleted path is neither a directory nor
scannable).  Dispatching the REMOVE event for `/d` runs
`w.Remove("/d")`, which — the path being gone — takes the
single-path branch and deletes only `/d`'s entry: the former descendant
`/d/f` is still registered afterwards, contradicting the claimed
cascade over the former subtree. -/
theorem claim_C1_real_delete_eval :
    eventStep fsGone nfAccept nfAccept
        { callbacks := [(GoPath.abs ["d"], [0]), (GoPath.abs ["d", "f"], [0])],
          subscribed := [GoPath.abs ["d"], GoPath.abs ["d", "f"]] }
        { Path := GoPath.abs ["d"], Op := REMOVE } =
      .ok { callbacks := [(GoPath.abs ["d", "f"], [0])],
            subscribed := [GoPath.abs ["d", "f"]] }
        { Path := GoPath.abs ["d"], Op := REMOVE } []
    ∧ regGet [(GoPath.abs ["d", "f"], [0])] (GoPath.abs ["d", "f"]) = some [0] :=
  ⟨rfl, rfl⟩

/-- C8: code evaluation at the failing input.  A CREATE event arrives
for `/n`, which is currently a directory, while the registry holds no
entry for `/n` or any of its ancestors.  `getCallbacks` returns `nil`,
and the new-directory branch then calls `callbacks.FrontAll()` on that
nil list *before* the `callbacks != nil` guard of the dispatch step, a
nil-pointer dereference: the event is not dropped silently. -/
theorem claim_C8_create_dir_nil_fault :
    eventStep fsAllDir nfAccept nfAccept wEmpty
        { Path := GoPath.abs ["n"], Op := CREATE } = .fault := rfl

/-- C2: counterexample.  `/x` has no registry entry, yet
`Remove("/x")` returns the native source's rejection of the
unsubscription (real `fsnotify` rejects removing a watch it does not
hold), so removing an unwatched path is *not* unconditionally
error-free. -/
theorem claim_C2_counterexample :
    regGet wEmpty.callbacks (GoPath.abs ["x"]) = none
    ∧ (Remove fsGone nfReject wEmpty (GoPath.abs ["x"])).2 =
        some (WErr.nativeRemoveFail (GoPath.abs ["x"])) :=
  ⟨rfl, rfl⟩

/-- C2 (amended): `Remove` on a non-directory path always deletes the
path's registry entry (a no-op when the entry is absent, so the
*registry* side is idempotent) and always issues the native
unsubscription, but it returns the native unsubscription's result: it
succeeds exactly when the native source accepts the unsubscription —
and, for a directory, exactly when the native source accepts the
unsubscription of every member of the current listing. -/
theorem claim_C2_remove_amended (fs : FS) (nrf : GoPath → Bool) (w : WState)
    (p : GoPath) (hnd : fs.isDir p = false) :
    (Remove fs nrf w p).1.callbacks = regRemove w.callbacks p
    ∧ (Remove fs nrf w p).1.subscribed = (nativeRemove nrf w.subscribed p).1
    ∧ ((Remove fs nrf w p).2 = none ↔ nrf p = false)
    ∧ (regGet w.callbacks p = none → (Remove fs nrf w p).1.callbacks = w.callbacks)
    ∧ (∀ q, fs.isDir q = true →
        ((Remove fs nrf w q).2 = none ↔ ∀ r ∈ q :: fs.scanDir q, nrf r = false)) := by
  have hrw : Remove fs nrf w p = removeWatch nrf w p := by
    simp [Remove, hnd]
  refine ⟨?_, ?_, ?_, ?_, ?_⟩
  · rw [hrw]
    rfl
  · rw [hrw]
    rfl
  · rw [hrw]
    unfold removeWatch nativeRemove
    by_cases h : nrf p = true <;> simp [h]
  · intro hget
    rw [hrw]
    exact regRemove_of_get_none w.callbacks p hget
  · intro q hq
    rw [Remove, if_pos hq]
    exact removeAll_err_iff nrf (q :: fs.scanDir q) w

/-- C2 (amended) at a concrete input: the unwatched file `/x` with an
accepting native source — the registry is untouched and no error is
returned; with a rejecting native source the error comes back. -/
theorem claim_C2_remove_amended_witness :
    (Remove fsGone nfAccept wEmpty (GoPath.abs ["x"])).1.callbacks = []
    ∧ ((Remove fsGone nfAccept wEmpty (GoPath.abs ["x"])).2 = none ↔
        nfAccept (GoPath.abs ["x"]) = false) := by
  have h := claim_C2_remove_amended fsGone nfAccept wEmpty (GoPath.abs ["x"]) rfl
  exact ⟨h.2.2.2.1 rfl, h.2.2.1⟩

/-- C3: counterexample.  The native source rejects every subscription
(the subscribed set stays empty), the path `/x` canonicalizes fine, and
`addWatch` still returns no error: a failed native subscribe is *not*
surfaced to the caller. -/
theorem claim_C3_counterexample :
    (addWatch fsFlat nfReject wEmpty (GoPath.abs ["x"]) 7).2 = none
    ∧ (addWatch fsFlat nfReject wEmpty (GoPath.abs ["x"]) 7).1.subscribed = [] :=
  ⟨rfl, rfl⟩

/-- C3 (amended): the single-path add ignores the native subscription's
result (`w.watcher.Add(path)` on line 111 discards the error): its
error result does not depend on the native source at all, and it
returns no error exactly when the path canonicalizes
(`PathResolutionError` is the only synchronous error of the add path). -/
theorem claim_C3_add_error_amended (fs : FS) (nf nf' : GoPath → Bool) (w : WState)
    (p : GoPath) (cb : Cb) :
    ((addWatch fs nf w p cb).2 = none ↔ (fs.resolve p).isSome = true)
    ∧ (addWatch fs nf w p cb).2 = (addWatch fs nf' w p cb).2 := by
  cases h : fs.resolve p <;> simp [addWatch, h]

/-- C5: counterexample.  The root `"/"` itself carries a registry
entry, yet `getCallbacks "/"` returns nothing: the loop guard
`for path != "/"` exits before the direct entry of the root is ever
consulted, so "a direct registry entry is returned" fails at `"/"`. -/
theorem claim_C5_counterexample :
    regGet [(GoPath.fsroot, [0])] GoPath.fsroot = some [0]
    ∧ getCallbacks [(GoPath.fsroot, [0])] GoPath.fsroot = some none :=
  ⟨rfl, rfl⟩

/-- C5 (amended): on an absolute path, `getCallbacks` terminates and
returns exactly the spec's hierarchical-fallback walk restricted to the
path and its ancestors *strictly below the root*: the first match among
path, parent, grandparent, …, and nothing once the root is reached —
the root's own entry (if any) is never consulted.  In particular any
non-root path with a direct entry gets that entry's list. -/
theorem claim_C5_lookup_amended (m : Registry) (segs : List String) :
    getCallbacks m (GoPath.abs segs) = some (specLookup m segs)
    ∧ (segs ≠ [] → ∀ l, regGet m (GoPath.abs segs) = some l →
        specLookup m segs = some (GoPath.abs segs, l)) := by
  constructor
  · have h := gcLoop_chainR m segs.reverse
    rw [List.reverse_reverse, List.length_reverse] at h
    simpa [getCallbacks, pathFuel, GoPath.nsegs, specLookup] using h
  · intro hne l hget
    unfold specLookup
    cases hrev : segs.reverse with
    | nil =>
        have : segs = [] := by simpa using congrArg List.reverse hrev
        exact absurd this hne
    | cons s rest =>
        have hsegs : (s :: rest).reverse = segs := by
          rw [← hrev, List.reverse_reverse]
        rw [chainR, hsegs, hget]

/-- C5 (amended) at a concrete input: a one-segment path with a direct
entry is looked up to exactly that entry. -/
theorem claim_C5_lookup_amended_witness :
    getCallbacks [(GoPath.abs ["a"], [3])] (GoPath.abs ["a"]) =
      some (specLookup [(GoPath.abs ["a"], [3])] ["a"])
    ∧ specLookup [(GoPath.abs ["a"], [3])] ["a"] =
        some (GoPath.abs ["a"], [3]) := by
  refine ⟨(claim_C5_lookup_amended [(GoPath.abs ["a"], [3])] ["a"]).1, ?_⟩
  exact (claim_C5_lookup_amended [(GoPath.abs ["a"], [3])] ["a"]).2
    (by simp) [3] rfl

/-- C4: a dequeued event whose `Op` includes REMOVE and whose path
still exists is reconciled as a fake delete: the native subscription for
the path is re-issued (the `w.watcher.Add(event.Path)` call), the
event's `Op` is overwritten with exactly RENAME (all other bits
dropped), and the registry is left untouched — no cascading removal
happens. -/
theorem claim_C4_fake_delete (fs : FS) (nf nrf : GoPath → Bool) (w : WState)
    (ev : Event) (hrm : ev.IsRemove = true) (hex : fs.pexists ev.Path = true)
    (habs : ev.Path.isAbs = true) :
    ∃ fired, eventStep fs nf nrf w ev =
      .ok { callbacks := w.callbacks,
            subscribed := nativeAdd nf w.subscribed ev.Path }
        { Path := ev.Path, Op := RENAME } fired := by
  have hrec : reconcile fs nf nrf w ev =
      ({ callbacks := w.callbacks,
         subscribed := nativeAdd nf w.subscribed ev.Path },
       { Path := ev.Path, Op := RENAME }) := by
    simp [reconcile, hrm, hex]
  obtain ⟨segs, hsegs⟩ : ∃ segs, ev.Path = GoPath.abs segs := by
    cases hp : ev.Path with
    | abs s => exact ⟨s, rfl⟩
    | rel s => rw [hp] at habs; simp [GoPath.isAbs] at habs
  have hlook : (getCallbacks w.callbacks ev.Path).isSome = true := by
    rw [hsegs]
    exact gcLoop_abs_isSome w.callbacks (pathFuel (GoPath.abs segs)) segs
      (by simp [pathFuel, GoPath.nsegs])
  obtain ⟨found, hfound⟩ := Option.isSome_iff_exists.mp hlook
  have h81 : RENAME &&& CREATE = 0 := by decide
  have hnc : ∀ P, Event.IsCreate { Path := P, Op := RENAME } = false := by
    intro P
    show (RENAME &&& CREATE != 0) = false
    rw [h81]
    rfl
  cases found with
  | none =>
      refine ⟨[], ?_⟩
      simp only [eventStep, hrec, hfound, hnc, Bool.false_and]
      simp
  | some kl =>
      refine ⟨(regGet w.callbacks kl.1).getD [], ?_⟩
      simp only [eventStep, hrec, hfound, hnc, Bool.false_and]
      simp

/-- C4 at a concrete input: a REMOVE|WRITE event for the existing file
`/x` from an empty registry is turned into a pure RENAME event and
triggers no registry change. -/
theorem claim_C4_fake_delete_witness :
    ∃ fired, eventStep fsFlat nfAccept nfAccept wEmpty
        { Path := GoPath.abs ["x"], Op := 6 } =
      .ok { callbacks := wEmpty.callbacks,
            subscribed := nativeAdd nfAccept wEmpty.subscribed (GoPath.abs ["x"]) }
        { Path := GoPath.abs ["x"], Op := RENAME } fired :=
  claim_C4_fake_delete fsFlat nfAccept nfAccept wEmpty
    { Path := GoPath.abs ["x"], Op := 6 } rfl rfl rfl

/-- C6: a recursive `Add` of a directory whose members all
canonicalize, to pairwise distinct canonical paths, starting from an
empty registry, succeeds and produces exactly one registry entry per
member — `1 + (N + M)` entries for `N + M` listed descendants — and
every entry's list contains (indeed is exactly) the added callback. -/
theorem claim_C6_recursive_add (fs : FS) (nf : GoPath → Bool) (root : GoPath)
    (cb : Cb) (hdir : fs.isDir root = true)
    (hres : ∀ p ∈ root :: fs.scanDir root, (fs.resolve p).isSome = true)
    (hnd : ((root :: fs.scanDir root).map fs.resolve).Nodup) :
    (Add fs nf wEmpty root cb []).2 = none
    ∧ (Add fs nf wEmpty root cb []).1.callbacks =
        (root :: fs.scanDir root).map (fun p => ((fs.resolve p).getD p, [cb]))
    ∧ (Add fs nf wEmpty root cb []).1.callbacks.length =
        1 + (fs.scanDir root).length
    ∧ ∀ e ∈ (Add fs nf wEmpty root cb []).1.callbacks, cb ∈ e.2 := by
  have hAdd : Add fs nf wEmpty root cb [] =
      addAll fs nf wEmpty (root :: fs.scanDir root) cb := by
    simp [Add, hdir]
  obtain ⟨he, hc⟩ := addAll_fresh fs nf cb (root :: fs.scanDir root) wEmpty
    hres hnd (fun p _ t _ => rfl)
  have hc' : (Add fs nf wEmpty root cb []).1.callbacks =
      (root :: fs.scanDir root).map (fun p => ((fs.resolve p).getD p, [cb])) := by
    rw [hAdd, hc]
    rfl
  refine ⟨hAdd ▸ he, hc', ?_, ?_⟩
  · rw [hc']
    simp [Nat.add_comm]
  · intro e he2
    rw [hc'] at he2
    obtain ⟨p, -, hpe⟩ := List.mem_map.mp he2
    rw [← hpe]
    simp

/-- C6 at a concrete input: adding the directory `/r` with its two
files `/r/a`, `/r/b` yields exactly three entries, with no error. -/
theorem claim_C6_recursive_add_witness :
    (Add fsTree nfAccept wEmpty (GoPath.abs ["r"]) 5 []).2 = none
    ∧ (Add fsTree nfAccept wEmpty (GoPath.abs ["r"]) 5 []).1.callbacks.length =
        1 + (fsTree.scanDir (GoPath.abs ["r"])).length := by
  have h := claim_C6_recursive_add fsTree nfAccept (GoPath.abs ["r"]) 5
    (by decide) (fun p _ => rfl) (by decide)
  exact ⟨h.1, h.2.2.1⟩

/-- C7: `addWatch` fails exactly when the path does not canonicalize
(the `PathResolutionError` of the spec); in a recursive `Add` whose
member list splits as `good ++ bad :: rest` with every `good` member
resolving and `bad` not, the call returns `bad`'s error immediately,
the final state is exactly the state after adding the `good` prefix (no
rollback), and every `good` member's canonical path is still registered
with the callback in its list. -/
theorem claim_C7_add_error (fs : FS) (nf : GoPath → Bool) (w : WState)
    (root q bad : GoPath) (cb : Cb) (good rest : List GoPath)
    (hdir : fs.isDir root = true)
    (hsplit : root :: fs.scanDir root = good ++ bad :: rest)
    (hgood : ∀ p ∈ good, (fs.resolve p).isSome = true)
    (hbad : fs.resolve bad = none) :
    ((addWatch fs nf w q cb).2 = none ↔ (fs.resolve q).isSome = true)
    ∧ Add fs nf w root cb [] =
        ((addAll fs nf w good cb).1, some (WErr.pathNotExist bad))
    ∧ (∀ p ∈ good, ∀ t, fs.resolve p = some t →
        ∃ lst, regGet (Add fs nf w root cb []).1.callbacks t = some lst
          ∧ cb ∈ lst) := by
  have hAdd : Add fs nf w root cb [] =
      addAll fs nf w (root :: fs.scanDir root) cb := by
    simp [Add, hdir]
  have h2 : Add fs nf w root cb [] =
      ((addAll fs nf w good cb).1, some (WErr.pathNotExist bad)) := by
    rw [hAdd, hsplit]
    exact addAll_append_fail fs nf cb bad hbad good rest w hgood
  refine ⟨?_, h2, ?_⟩
  · cases hq : fs.resolve q <;> simp [addWatch, hq]
  · intro p hp t ht
    rw [h2]
    exact addAll_registered fs nf cb good w hgood p hp t ht

/-- C7 at a concrete input: recursively adding `/r` whose member
`/r/b` does not resolve returns `/r/b`'s path-resolution error while
`/r` and `/r/a` stay registered with the callback. -/
theorem claim_C7_add_error_witness :
    (Add fsTreeBad nfAccept wEmpty (GoPath.abs ["r"]) 9 []).2 =
      some (WErr.pathNotExist (GoPath.abs ["r", "b"]))
    ∧ ∃ lst, regGet (Add fsTreeBad nfAccept wEmpty (GoPath.abs ["r"]) 9 []).1.callbacks
        (GoPath.abs ["r", "a"]) = some lst ∧ 9 ∈ lst := by
  have h := claim_C7_add_error fsTreeBad nfAccept wEmpty (GoPath.abs ["r"])
    (GoPath.abs ["x"]) (GoPath.abs ["r", "b"]) 9
    [GoPath.abs ["r"], GoPath.abs ["r", "a"]] []
    (by decide) (by decide) (by decide) (by decide)
  constructor
  · rw [h.2.1]
  · exact h.2.2 (GoPath.abs ["r", "a"]) (by decide) (GoPath.abs ["r", "a"])
      (by decide)

/-- C9: the canonical-key invariant.  If every registry key is an
output of filesystem resolution, this is preserved by `Add`, by
`Remove`, and by any normally completing dispatch-loop iteration (whose
registry writes all go through the same `addWatch`/`removeWatch`); and
registering the same filesystem entity through two different spellings
`p1`, `p2` that resolve to the same canonical path `c` (not yet
registered) creates exactly one entry, keyed `c`. -/
theorem claim_C9_canonical_keys (fs : FS) (nf nrf : GoPath → Bool) (w : WState)
    (p p1 p2 c : GoPath) (cb cb1 cb2 : Cb) (ev : Event) (rc : List Bool) :
    (keysResolved fs w.callbacks →
       keysResolved fs (Add fs nf w p cb rc).1.callbacks
       ∧ keysResolved fs (Remove fs nrf w p).1.callbacks
       ∧ ∀ w' ev' fired, eventStep fs nf nrf w ev = .ok w' ev' fired →
           keysResolved fs w'.callbacks)
    ∧ (fs.resolve p1 = some c → fs.resolve p2 = some c →
       regGet w.callbacks c = none →
       regKeys (addWatch fs nf (addWatch fs nf w p1 cb1).1 p2 cb2).1.callbacks =
         regKeys w.callbacks ++ [c]
       ∧ (regKeys
            (addWatch fs nf (addWatch fs nf w p1 cb1).1 p2 cb2).1.callbacks).count
            c = 1) := by
  constructor
  · intro h
    exact ⟨keysResolved_Add fs nf w p cb rc h,
      keysResolved_Remove fs nrf w p h,
      keysResolved_eventStep fs nf nrf w ev h⟩
  · intro h1 h2 hget
    have hw1 : (addWatch fs nf w p1 cb1).1.callbacks =
        w.callbacks ++ [(c, [cb1])] := by
      rw [addWatch_callbacks_eq fs nf w p1 cb1 c h1]
      simp only [insertCb, hget]
    have hg2 : regGet (w.callbacks ++ [(c, [cb1])]) c = some [cb1] := by
      rw [regGet_append, hget]
      simp [regGet]
    have hw2 : (addWatch fs nf (addWatch fs nf w p1 cb1).1 p2 cb2).1.callbacks =
        regSet (w.callbacks ++ [(c, [cb1])]) c ([cb1] ++ [cb2]) := by
      rw [addWatch_callbacks_eq fs nf (addWatch fs nf w p1 cb1).1 p2 cb2 c h2,
        hw1]
      simp only [insertCb, hg2]
    have hkeys :
        regKeys (regSet (w.callbacks ++ [(c, [cb1])]) c ([cb1] ++ [cb2])) =
          regKeys w.callbacks ++ [c] := by
      rw [regKeys_regSet, regKeys_append]
      rfl
    have hnotmem : c ∉ regKeys w.callbacks := (regGet_eq_none_iff _ _).mp hget
    refine ⟨by rw [hw2, hkeys], ?_⟩
    rw [hw2, hkeys, List.count_append]
    simp [List.count_eq_zero.mpr hnotmem]

/-- C9 at a concrete input: adding `/x` twice (two spellings that both
resolve to `/x`) to the empty watcher keeps the invariant and yields
exactly the one key `/x`. -/
theorem claim_C9_canonical_keys_witness :
    keysResolved fsFlat (Add fsFlat nfAccept wEmpty (GoPath.abs ["x"]) 0 []).1.callbacks
    ∧ regKeys (addWatch fsFlat nfAccept
        (addWatch fsFlat nfAccept wEmpty (GoPath.abs ["x"]) 1).1
        (GoPath.abs ["x"]) 2).1.callbacks =
      regKeys wEmpty.callbacks ++ [GoPath.abs ["x"]] := by
  have h := claim_C9_canonical_keys fsFlat nfAccept nfAccept wEmpty
    (GoPath.abs ["x"]) (GoPath.abs ["x"]) (GoPath.abs ["x"]) (GoPath.abs ["x"])
    0 1 2 { Path := GoPath.abs ["x"], Op := 4 } []
  refine ⟨(h.1 ?_).1, (h.2 rfl rfl rfl).1⟩
  intro k hk
  simp [wEmpty, regKeys] at hk

/-- C10: the `getCallbacks` loop, run with fuel, finishes within
`segments + 1` iterations on any slash-rooted (absolute) path — each
`Dir` step strips one segment until the guard `path != "/"` fails — so
`getCallbacks` (which supplies exactly that fuel) is defined on every
absolute path; on a path not rooted at `"/"`, under the program's
invariant that all registry keys are absolute, *no* amount of fuel
finishes the loop (`Dir` bottoms out at `"."`, which never equals `"/"`
and never matches a key): the loop never terminates, so termination
requires the absolute-path precondition. -/
theorem claim_C10_lookup_termination (m : Registry) (segsA segsR : List String)
    (fuel : Nat) :
    (segsA.length < fuel → (gcLoop m fuel (GoPath.abs segsA)).isSome = true)
    ∧ (getCallbacks m (GoPath.abs segsA)).isSome = true
    ∧ ((∀ k ∈ regKeys m, k.isAbs = true) →
        gcLoop m fuel (GoPath.rel segsR) = none) := by
  refine ⟨fun h => gcLoop_abs_isSome m fuel segsA h, ?_,
    fun h => gcLoop_rel_none m h fuel segsR⟩
  exact gcLoop_abs_isSome m (pathFuel (GoPath.abs segsA)) segsA
    (by simp [pathFuel, GoPath.nsegs])

/-- C10 at a concrete input: fuel 5 settles the lookup of the absolute
path `/x/y` over a one-entry registry, while the relative path `x`
exhausts the same fuel without finishing. -/
theorem claim_C10_lookup_termination_witness :
    (gcLoop [(GoPath.abs ["a"], [0])] 5 (GoPath.abs ["x", "y"])).isSome = true
    ∧ gcLoop [(GoPath.abs ["a"], [0])] 5 (GoPath.rel ["x"]) = none := by
  have h := claim_C10_lookup_termination [(GoPath.abs ["a"], [0])] ["x", "y"] ["x"] 5
  exact ⟨h.1 (by decide), h.2.2 (by decide)⟩

end Gfsnotify
